import Mathlib

/-!
Verification of the Care-Web batch extraction and identity-resolution pipeline.

The definitions below are shallow embeddings of the repository's Python code:
 * `argminIdx` / `argmaxIdx`           — `np.argmin` / `np.argmax` (first occurrence wins),
   as used in `app/detection_model/ReID.py` and `app/detection_model/detection.py`;
 * `compute_distances`                 — the self-match-suppression step of
   `ReID.compute_distances` (the embedding model itself is external; the row of
   distances it produced is taken as input);
 * `rStep`, `pdmGo`, `process_dist_mat` — `ReID.process_dist_mat` (greedy cluster
   resolver), with the Python dict embedded as an insertion-ordered association list
   and the `keys` array embedded as a list of `Int` with `-1` as the
   "unassigned" sentinel, exactly as in the source;
 * `format_output_dict`                — `ReID.format_output_dict`;
 * `reidProgressCalls`                 — the progress-callback sequence of `ReID.main`;
 * `process_image_func`, `collectLoop`, `workerRun`, `workerEvents`
                                       — `app/app_pages/UploadPage.py` (per-task
   processing and `ImageProcessingWorker.run`'s collection loop);
 * `make_inference_detection`          — `app/detection_model/detection.py`;
 * `rsplitHead`                        — Python's `s.rsplit(' ', 1)[0]`, used by
   `UploadPage.store_images_with_location` to recover the group hint.

Real-valued quantities (distances, confidences, elapsed wall-clock times) are
modelled by `ℚ`; machine floats only ever get compared or divided here, so the
ordered-field behaviour is the intended semantics.
-/

namespace CareWeb

/-! ### np.argmin / np.argmax, first-occurrence semantics -/

/-- Running state of a linear argmin scan: `bi` is the index of the best value
seen so far, `bv` that value, `i` the index of the head of `xs` in the full row.
`np.argmin` keeps the earliest index on ties, hence the strict `<` update. -/
def argminGo : List ℚ → Nat → ℚ → Nat → Nat
  | [], bi, _, _ => bi
  | x :: xs, bi, bv, i => if x < bv then argminGo xs i x (i + 1) else argminGo xs bi bv (i + 1)

/-- `np.argmin` on a row: index of the first minimum (0 on the empty row). -/
def argminIdx : List ℚ → Nat
  | [] => 0
  | x :: xs => argminGo xs 0 x 1

/-- Running state of a linear argmax scan, mirror of `argminGo`. -/
def argmaxGo : List ℚ → Nat → ℚ → Nat → Nat
  | [], bi, _, _ => bi
  | x :: xs, bi, bv, i => if bv < x then argmaxGo xs i x (i + 1) else argmaxGo xs bi bv (i + 1)

/-- `np.argmax` on a row: index of the first maximum (0 on the empty row). -/
def argmaxIdx : List ℚ → Nat
  | [] => 0
  | x :: xs => argmaxGo xs 0 x 1

theorem argminGo_spec (l : List ℚ) :
    ∀ (xs : List ℚ) (i bi : Nat) (bv : ℚ),
      i + xs.length = l.length →
      (∀ j, j < xs.length → xs.getD j 0 = l.getD (i + j) 0) →
      bi < i →
      l.getD bi 0 = bv →
      (∀ j, j < i → bv ≤ l.getD j 0) →
      (∀ j, j < bi → bv < l.getD j 0) →
      argminGo xs bi bv i < l.length ∧
        (∀ j, j < l.length → l.getD (argminGo xs bi bv i) 0 ≤ l.getD j 0) ∧
        (∀ j, j < argminGo xs bi bv i → l.getD (argminGo xs bi bv i) 0 < l.getD j 0) := by
  intro xs
  induction xs with
  | nil =>
    intro i bi bv hlen _ hbi hval hmin hfirst
    simp only [argminGo]
    have hi : i = l.length := by
      simp only [List.length_nil, Nat.add_zero] at hlen
      exact hlen
    subst hi
    refine ⟨hbi, ?_, ?_⟩
    · intro j hj
      rw [hval]; exact hmin j hj
    · intro j hj
      rw [hval]; exact hfirst j hj
  | cons x rest ih =>
    intro i bi bv hlen hsub hbi hval hmin hfirst
    have hx : x = l.getD i 0 := by
      have := hsub 0 (by simp)
      simpa using this
    have hlen' : (i + 1) + rest.length = l.length := by
      simp only [List.length_cons] at hlen; omega
    have hsub' : ∀ j, j < rest.length → rest.getD j 0 = l.getD ((i + 1) + j) 0 := by
      intro j hj
      have := hsub (j + 1) (by simp only [List.length_cons]; omega)
      simp only [List.getD_cons_succ] at this
      rw [this]
      congr 1
      omega
    simp only [argminGo]
    by_cases hcmp : x < bv
    · rw [if_pos hcmp]
      apply ih (i + 1) i x hlen' hsub' (Nat.lt_succ_self i) hx.symm
      · intro j hj
        rcases Nat.lt_succ_iff_lt_or_eq.mp hj with hj' | hj'
        · exact le_of_lt (lt_of_lt_of_le hcmp (hmin j hj'))
        · subst hj'; rw [← hx]
      · intro j hj
        exact lt_of_lt_of_le hcmp (hmin j hj)
    · rw [if_neg hcmp]
      apply ih (i + 1) bi bv hlen' hsub' (Nat.lt_succ_of_lt hbi) hval
      · intro j hj
        rcases Nat.lt_succ_iff_lt_or_eq.mp hj with hj' | hj'
        · exact hmin j hj'
        · subst hj'; rw [← hx]; exact le_of_not_lt hcmp
      · exact hfirst

/-- `argminIdx` returns the index of the first minimum: it is in range, its value
is a lower bound for the whole row, and every strictly earlier entry is strictly
larger. -/
theorem argminIdx_spec (l : List ℚ) (h : l ≠ []) :
    argminIdx l < l.length ∧
      (∀ j, j < l.length → l.getD (argminIdx l) 0 ≤ l.getD j 0) ∧
      (∀ j, j < argminIdx l → l.getD (argminIdx l) 0 < l.getD j 0) := by
  match l, h with
  | x :: xs, _ =>
    show argminGo xs 0 x 1 < _ ∧ _ ∧ _
    apply argminGo_spec (x :: xs) xs 1 0 x
    · simp only [List.length_cons]; omega
    · intro j hj
      have h1j : 1 + j = j + 1 := by omega
      rw [h1j, List.getD_cons_succ]
    · omega
    · rfl
    · intro j hj
      have hj0 : j = 0 := by omega
      subst hj0
      exact le_refl x
    · intro j hj
      omega

theorem argmaxGo_spec (l : List ℚ) :
    ∀ (xs : List ℚ) (i bi : Nat) (bv : ℚ),
      i + xs.length = l.length →
      (∀ j, j < xs.length → xs.getD j 0 = l.getD (i + j) 0) →
      bi < i →
      l.getD bi 0 = bv →
      (∀ j, j < i → l.getD j 0 ≤ bv) →
      argmaxGo xs bi bv i < l.length ∧
        (∀ j, j < l.length → l.getD j 0 ≤ l.getD (argmaxGo xs bi bv i) 0) := by
  intro xs
  induction xs with
  | nil =>
    intro i bi bv hlen _ hbi hval hmax
    simp only [argmaxGo]
    have hi : i = l.length := by
      simp only [List.length_nil, Nat.add_zero] at hlen
      exact hlen
    subst hi
    refine ⟨hbi, ?_⟩
    intro j hj
    rw [hval]; exact hmax j hj
  | cons x rest ih =>
    intro i bi bv hlen hsub hbi hval hmax
    have hx : x = l.getD i 0 := by
      have := hsub 0 (by simp)
      simpa using this
    have hlen' : (i + 1) + rest.length = l.length := by
      simp only [List.length_cons] at hlen; omega
    have hsub' : ∀ j, j < rest.length → rest.getD j 0 = l.getD ((i + 1) + j) 0 := by
      intro j hj
      have := hsub (j + 1) (by simp only [List.length_cons]; omega)
      simp only [List.getD_cons_succ] at this
      rw [this]
      congr 1
      omega
    simp only [argmaxGo]
    by_cases hcmp : bv < x
    · rw [if_pos hcmp]
      apply ih (i + 1) i x hlen' hsub' (Nat.lt_succ_self i) hx.symm
      intro j hj
      rcases Nat.lt_succ_iff_lt_or_eq.mp hj with hj' | hj'
      · exact le_of_lt (lt_of_le_of_lt (hmax j hj') hcmp)
      · subst hj'; rw [← hx]
    · rw [if_neg hcmp]
      apply ih (i + 1) bi bv hlen' hsub' (Nat.lt_succ_of_lt hbi) hval
      intro j hj
      rcases Nat.lt_succ_iff_lt_or_eq.mp hj with hj' | hj'
      · exact hmax j hj'
      · subst hj'; rw [← hx]; exact le_of_not_lt hcmp

/-- `argmaxIdx` is in range and its value bounds the whole row from above. -/
theorem argmaxIdx_spec (l : List ℚ) (h : l ≠ []) :
    argmaxIdx l < l.length ∧ ∀ j, j < l.length → l.getD j 0 ≤ l.getD (argmaxIdx l) 0 := by
  match l, h with
  | x :: xs, _ =>
    show argmaxGo xs 0 x 1 < _ ∧ _
    apply argmaxGo_spec (x :: xs) xs 1 0 x
    · simp only [List.length_cons]; omega
    · intro j hj
      have h1j : 1 + j = j + 1 := by omega
      rw [h1j, List.getD_cons_succ]
    · omega
    · rfl
    · intro j hj
      have hj0 : j = 0 := by omega
      subst hj0
      exact le_refl x

/-! ### Distance Matrix Builder: self-match suppression (`ReID.compute_distances`) -/

/-- `ReID.compute_distances`, lines 44-49.  The cosine-distance loop queries the
external embedding model, so the row of distances it produced is the input here;
the builder's own logic is the `is_duplicate` suppression step
`list_of_dist[np.argmin(list_of_dist)] = list_of_dist[np.argmax(list_of_dist)]`. -/
def compute_distances (list_of_dist : List ℚ) (is_duplicate : Bool) : List ℚ :=
  if is_duplicate then
    list_of_dist.set (argminIdx list_of_dist) (list_of_dist.getD (argmaxIdx list_of_dist) 0)
  else
    list_of_dist

/-! ### Greedy Cluster Resolver (`ReID.process_dist_mat`) -/

/-- Insertion-ordered association list model of the Python dict assignment
`d[k] = v`: overwrite in place if the key exists, else append at the end. -/
def dictInsert (d : List (Int × List Nat)) (k : Int) (v : List Nat) : List (Int × List Nat) :=
  match d with
  | [] => [(k, v)]
  | e :: rest => if e.1 = k then (k, v) :: rest else e :: dictInsert rest k v

/-- The Python statement `d[k].append(x)` on the dict model. -/
def dictAppendAt (d : List (Int × List Nat)) (k : Int) (x : Nat) : List (Int × List Nat) :=
  d.map (fun e => if e.1 = k then (e.1, e.2 ++ [x]) else e)

/-- Mutable state of the `process_dist_mat` loop: `output_dict`, the `keys`
array (`-1` = unassigned, as in the source), and the cluster `counter`. -/
structure RState where
  dict : List (Int × List Nat)
  keys : List Int
  counter : Int
deriving DecidableEq, Repr

/-- One iteration of the `process_dist_mat` loop body (`ReID.py` lines 60-81)
for row `r` whose argmin is `m`: the four-way case split on
`(keys[r], keys[matched_index])`. -/
def rStep (s : RState) (r m : Nat) : RState :=
  if s.keys.getD r (-1) = -1 ∧ s.keys.getD m (-1) = -1 then
    { dict := dictAppendAt (dictInsert s.dict s.counter [r]) s.counter m
      keys := (s.keys.set r s.counter).set m s.counter
      counter := s.counter + 1 }
  else if s.keys.getD r (-1) = -1 ∧ s.keys.getD m (-1) ≠ -1 then
    { dict := dictAppendAt s.dict (s.keys.getD m (-1)) r
      keys := s.keys.set r (s.keys.getD m (-1))
      counter := s.counter }
  else if s.keys.getD r (-1) ≠ -1 ∧ s.keys.getD m (-1) = -1 then
    { dict := dictAppendAt s.dict (s.keys.getD r (-1)) m
      keys := s.keys.set m (s.keys.getD r (-1))
      counter := s.counter }
  else
    s

/-- The row loop of `process_dist_mat`: rows are visited in index order `r`,
each matched to the first minimum of its own row. -/
def pdmGo (rows : List (List ℚ)) (r : Nat) (s : RState) : RState :=
  match rows with
  | [] => s
  | row :: rest => pdmGo rest (r + 1) (rStep s r (argminIdx row))

/-- `ReID.process_dist_mat`, lines 52-84: returns `output_dict` after the pass. -/
def process_dist_mat (dist_mat : List (List ℚ)) : List (Int × List Nat) :=
  (pdmGo dist_mat 0 ⟨[], List.replicate dist_mat.length (-1), 0⟩).dict

/-! ### Result Assembler (`ReID.format_output_dict`) -/

/-- `img_path.split("/")[-1]`: the final `/`-separated component of a path,
i.e. the characters after the last `/` (the whole string when there is none). -/
def lastComp (img_path : String) : String :=
  ⟨(img_path.data.reverse.takeWhile (fun c => c != '/')).reverse⟩

/-- `ReID.format_output_dict`, lines 87-105: one formatted entry per cluster,
key `"ID-" ++ id`, members translated through `image_names`; the
`if id not in output_dict_with_filenames` guard is kept as in the source. -/
def format_output_dict (image_paths : List String) (output_dict : List (Int × List Nat)) :
    List (String × List String) :=
  let image_names := image_paths.map lastComp
  output_dict.foldl
    (fun acc e =>
      let id := "ID-" ++ toString e.1
      let list_of_img_names := e.2.map (fun img => image_names.getD img "")
      if acc.any (fun x => x.1 = id) then acc else acc ++ [(id, list_of_img_names)])
    []

example : compute_distances [0, 1] true = [1, 1] := by decide
example : argminIdx (compute_distances [0, 1] true) = 0 := by decide
example : compute_distances [0, 3, 2] true = [3, 3, 2] := by decide
example : process_dist_mat [[0]] = [(0, [0, 0])] := by decide
example : process_dist_mat [[5, 1], [1, 5]] = [(0, [0, 1])] := by decide
example :
    process_dist_mat [[5, 1, 9], [1, 5, 9], [9, 1, 5]] = [(0, [0, 1, 2])] := by decide
example :
    format_output_dict ["q/A.jpg", "B", "C"] [(0, [0, 1, 2])] =
      [("ID-0", ["A.jpg", "B", "C"])] := by decide

/-! ### List and association-list helper lemmas -/

theorem getD_set_self {α : Type} (l : List α) (i : Nat) (v d : α) (h : i < l.length) :
    (l.set i v).getD i d = v := by
  rw [List.getD_eq_getElem _ _ (by simpa using h)]
  simp [List.getElem_set_self]

theorem getD_set_ne {α : Type} (l : List α) (i j : Nat) (v d : α) (h : i ≠ j) :
    (l.set i v).getD j d = l.getD j d := by
  rw [List.getD_eq_getElem?_getD, List.getElem?_set_ne h, ← List.getD_eq_getElem?_getD]

theorem getD_replicate_lt (n i : Nat) (d : Int) (h : i < n) :
    (List.replicate n (-1 : Int)).getD i d = -1 := by
  rw [List.getD_eq_getElem _ _ (by simpa using h)]
  simp

theorem dictInsert_of_not_mem (d : List (Int × List Nat)) (k : Int) (v : List Nat)
    (h : k ∉ d.map Prod.fst) : dictInsert d k v = d ++ [(k, v)] := by
  induction d with
  | nil => rfl
  | cons e rest ih =>
    simp only [List.map_cons, List.mem_cons, not_or] at h
    have hne : ¬(e.1 = k) := fun he => h.1 he.symm
    simp only [dictInsert, if_neg hne, List.cons_append, List.cons.injEq, true_and]
    exact ih h.2

theorem dictAppendAt_map_fst (d : List (Int × List Nat)) (k : Int) (x : Nat) :
    (dictAppendAt d k x).map Prod.fst = d.map Prod.fst := by
  unfold dictAppendAt
  rw [List.map_map]
  apply List.map_congr_left
  intro e _
  by_cases he : e.1 = k <;> simp [he]

theorem dictAppendAt_of_not_mem (d : List (Int × List Nat)) (k : Int) (x : Nat)
    (h : k ∉ d.map Prod.fst) : dictAppendAt d k x = d := by
  unfold dictAppendAt
  conv_rhs => rw [← List.map_id d]
  apply List.map_congr_left
  intro e he
  have : e.1 ≠ k := by
    intro hek
    exact h (hek ▸ List.mem_map_of_mem Prod.fst he)
  simp [this]

theorem dictAppendAt_append (d₁ d₂ : List (Int × List Nat)) (k : Int) (x : Nat) :
    dictAppendAt (d₁ ++ d₂) k x = dictAppendAt d₁ k x ++ dictAppendAt d₂ k x :=
  List.map_append _ _ _

theorem sum_indicator_eq_one (d : List (Int × List Nat)) (k : Int) (i : Nat)
    (hnd : (d.map Prod.fst).Nodup) (hk : k ∈ d.map Prod.fst)
    (hc : ∀ e ∈ d, e.2.count i = if e.1 = k then 1 else 0) :
    (d.map (fun e => e.2.count i)).sum = 1 := by
  induction d with
  | nil => simp at hk
  | cons e rest ih =>
    simp only [List.map_cons, List.nodup_cons] at hnd
    simp only [List.map_cons, List.sum_cons]
    by_cases hek : e.1 = k
    · have h1 : e.2.count i = 1 := by
        rw [hc e (List.mem_cons_self e rest)]
        simp [hek]
      have h0 : (rest.map (fun e => e.2.count i)).sum = 0 := by
        apply List.sum_eq_zero
        intro x hx
        rcases List.mem_map.mp hx with ⟨e2, he2, hval⟩
        have hne : e2.1 ≠ k := by
          intro hcontra
          exact hnd.1 (by rw [hek, ← hcontra]; exact List.mem_map_of_mem Prod.fst he2)
        rw [← hval, hc e2 (List.mem_cons_of_mem e he2)]
        simp [hne]
      omega
    · have h0 : e.2.count i = 0 := by
        rw [hc e (List.mem_cons_self e rest)]
        simp [hek]
      have hk2 : k ∈ rest.map Prod.fst := by
        rcases List.mem_cons.mp hk with hcontra | hok
        · exact absurd hcontra.symm hek
        · exact hok
      rw [h0]
      simpa using ih hnd.2 hk2 (fun e2 he2 => hc e2 (List.mem_cons_of_mem e he2))

/-! ### Resolver invariant: the state is a well-formed partial partition -/

/-- Invariant of the `process_dist_mat` loop state: `keys` has one slot per item,
cluster ids allocated so far are non-negative, below the counter and distinct,
every assigned item's owner is a dict key, and each item occurs in a member
list exactly when that list belongs to its owner, exactly once. -/
structure Inv (n : Nat) (s : RState) : Prop where
  klen : s.keys.length = n
  cnonneg : 0 ≤ s.counter
  knd : (s.dict.map Prod.fst).Nodup
  krange : ∀ k ∈ s.dict.map Prod.fst, 0 ≤ k ∧ k < s.counter
  owner_mem : ∀ i, i < n → s.keys.getD i (-1) = -1 ∨ s.keys.getD i (-1) ∈ s.dict.map Prod.fst
  count_eq : ∀ i, i < n → ∀ e ∈ s.dict, e.2.count i = if e.1 = s.keys.getD i (-1) then 1 else 0

/-- Any owner value is either the sentinel or a non-negative allocated id. -/
theorem Inv.owner_cases {n : Nat} {s : RState} (inv : Inv n s) (i : Nat) (hi : i < n) :
    s.keys.getD i (-1) = -1 ∨ (0 ≤ s.keys.getD i (-1) ∧ s.keys.getD i (-1) < s.counter) := by
  rcases inv.owner_mem i hi with h | h
  · exact Or.inl h
  · exact Or.inr (inv.krange _ h)

/-- Join step (cases 2 and 3 of the matching rule): the unassigned index `a`
is appended to the cluster owned by the assigned index `b`. -/
theorem joinStep_inv {n : Nat} {s : RState} (a b : Nat) (ha : a < n) (hb : b < n)
    (hab : a ≠ b) (inv : Inv n s) (hka : s.keys.getD a (-1) = -1)
    (hkb : s.keys.getD b (-1) ≠ -1) :
    Inv n ⟨dictAppendAt s.dict (s.keys.getD b (-1)) a,
           s.keys.set a (s.keys.getD b (-1)), s.counter⟩ := by
  have hκmem : s.keys.getD b (-1) ∈ s.dict.map Prod.fst := by
    rcases inv.owner_mem b hb with h | h
    · exact absurd h hkb
    · exact h
  have hkeys_a : (s.keys.set a (s.keys.getD b (-1))).getD a (-1) = s.keys.getD b (-1) :=
    getD_set_self _ _ _ _ (by rw [inv.klen]; exact ha)
  have hkeys_other : ∀ i, i ≠ a →
      (s.keys.set a (s.keys.getD b (-1))).getD i (-1) = s.keys.getD i (-1) := by
    intro i hia
    exact getD_set_ne _ _ _ _ _ (Ne.symm hia)
  constructor
  · simpa using inv.klen
  · exact inv.cnonneg
  · show (List.map Prod.fst (dictAppendAt s.dict (s.keys.getD b (-1)) a)).Nodup
    rw [dictAppendAt_map_fst]; exact inv.knd
  · show ∀ k ∈ List.map Prod.fst (dictAppendAt s.dict (s.keys.getD b (-1)) a),
      0 ≤ k ∧ k < s.counter
    rw [dictAppendAt_map_fst]; exact inv.krange
  · intro i hi
    show (s.keys.set a (s.keys.getD b (-1))).getD i (-1) = -1 ∨
      (s.keys.set a (s.keys.getD b (-1))).getD i (-1) ∈
        List.map Prod.fst (dictAppendAt s.dict (s.keys.getD b (-1)) a)
    rw [dictAppendAt_map_fst]
    by_cases hia : i = a
    · subst hia
      rw [hkeys_a]
      exact Or.inr hκmem
    · rw [hkeys_other i hia]
      exact inv.owner_mem i hi
  · intro i hi e he
    have he2 : e ∈ dictAppendAt s.dict (s.keys.getD b (-1)) a := he
    show e.2.count i = if e.1 = (s.keys.set a (s.keys.getD b (-1))).getD i (-1) then 1 else 0
    rcases List.mem_map.mp he2 with ⟨e0, he0, hfe⟩
    have he0nn : 0 ≤ e0.1 := (inv.krange _ (List.mem_map_of_mem Prod.fst he0)).1
    by_cases heκ : e0.1 = s.keys.getD b (-1)
    · rw [if_pos heκ] at hfe
      subst hfe
      simp only
      by_cases hia : i = a
      · subst hia
        rw [hkeys_a, if_pos heκ]
        have hold : e0.2.count i = 0 := by
          rw [inv.count_eq i hi e0 he0, hka]
          have hne : ¬(e0.1 = -1) := by omega
          rw [if_neg hne]
        rw [List.count_append, hold]
        simp
      · rw [hkeys_other i hia, List.count_append]
        have hsingle : List.count i [a] = 0 := by
          simp [List.count_singleton, hia]
        rw [hsingle, inv.count_eq i hi e0 he0]
        simp
    · rw [if_neg heκ] at hfe
      subst hfe
      by_cases hia : i = a
      · subst hia
        rw [hkeys_a, if_neg heκ, inv.count_eq i hi e0 he0, hka]
        have hne : ¬(e0.1 = -1) := by omega
        rw [if_neg hne]
      · rw [hkeys_other i hia]
        exact inv.count_eq i hi e0 he0

/-- New-cluster step (case 1 of the matching rule): both `r` and its match `m`
are unassigned; a fresh cluster `counter` is allocated holding `[r, m]`. -/
theorem newClusterStep_inv {n : Nat} {s : RState} (r m : Nat) (hr : r < n) (hm : m < n)
    (hrm : r ≠ m) (inv : Inv n s) (hkr : s.keys.getD r (-1) = -1)
    (hkm : s.keys.getD m (-1) = -1) :
    Inv n ⟨dictAppendAt (dictInsert s.dict s.counter [r]) s.counter m,
           (s.keys.set r s.counter).set m s.counter, s.counter + 1⟩ := by
  have hfresh : s.counter ∉ s.dict.map Prod.fst := by
    intro h
    exact absurd (inv.krange _ h).2 (lt_irrefl _)
  have hdict : dictAppendAt (dictInsert s.dict s.counter [r]) s.counter m
      = s.dict ++ [(s.counter, [r, m])] := by
    rw [dictInsert_of_not_mem _ _ _ hfresh, dictAppendAt_append,
        dictAppendAt_of_not_mem _ _ _ hfresh]
    simp [dictAppendAt]
  rw [hdict]
  have hklen1 : (s.keys.set r s.counter).length = n := by simpa using inv.klen
  have kg_r : ((s.keys.set r s.counter).set m s.counter).getD r (-1) = s.counter := by
    rw [getD_set_ne _ _ _ _ _ (Ne.symm hrm)]
    exact getD_set_self _ _ _ _ (by rw [inv.klen]; exact hr)
  have kg_m : ((s.keys.set r s.counter).set m s.counter).getD m (-1) = s.counter :=
    getD_set_self _ _ _ _ (by rw [hklen1]; exact hm)
  have kg_other : ∀ i, i ≠ r → i ≠ m →
      ((s.keys.set r s.counter).set m s.counter).getD i (-1) = s.keys.getD i (-1) := by
    intro i hir him
    rw [getD_set_ne _ _ _ _ _ (Ne.symm him), getD_set_ne _ _ _ _ _ (Ne.symm hir)]
  have hmapfst : (s.dict ++ [(s.counter, [r, m])]).map Prod.fst
      = s.dict.map Prod.fst ++ [s.counter] := by
    simp
  have hcnn := inv.cnonneg
  constructor
  · simpa using inv.klen
  · show (0 : Int) ≤ s.counter + 1
    omega
  · show (List.map Prod.fst (s.dict ++ [(s.counter, [r, m])])).Nodup
    rw [hmapfst]
    apply List.Nodup.append inv.knd (List.nodup_singleton _)
    intro x hx hx2
    rw [List.mem_singleton] at hx2
    subst hx2
    exact hfresh hx
  · show ∀ k ∈ List.map Prod.fst (s.dict ++ [(s.counter, [r, m])]), 0 ≤ k ∧ k < s.counter + 1
    rw [hmapfst]
    intro k hk
    rcases List.mem_append.mp hk with h | h
    · have := inv.krange k h
      omega
    · rw [List.mem_singleton] at h
      subst h
      omega
  · intro i hi
    show ((s.keys.set r s.counter).set m s.counter).getD i (-1) = -1 ∨
      ((s.keys.set r s.counter).set m s.counter).getD i (-1) ∈
        List.map Prod.fst (s.dict ++ [(s.counter, [r, m])])
    rw [hmapfst]
    by_cases hir : i = r
    · subst hir
      rw [kg_r]
      exact Or.inr (List.mem_append_right _ (List.mem_singleton_self _))
    by_cases him : i = m
    · subst him
      rw [kg_m]
      exact Or.inr (List.mem_append_right _ (List.mem_singleton_self _))
    · rw [kg_other i hir him]
      rcases inv.owner_mem i hi with h | h
      · exact Or.inl h
      · exact Or.inr (List.mem_append_left _ h)
  · intro i hi e he
    have he2 : e ∈ s.dict ++ [(s.counter, [r, m])] := he
    show e.2.count i = if e.1 = ((s.keys.set r s.counter).set m s.counter).getD i (-1) then 1 else 0
    rcases List.mem_append.mp he2 with hemem | hemem
    · have he1lt : e.1 < s.counter := (inv.krange _ (List.mem_map_of_mem Prod.fst hemem)).2
      have he1nn : 0 ≤ e.1 := (inv.krange _ (List.mem_map_of_mem Prod.fst hemem)).1
      by_cases hir : i = r
      · subst hir
        rw [kg_r, inv.count_eq i hi e hemem, hkr]
        have h1 : ¬(e.1 = -1) := by omega
        have h2 : ¬(e.1 = s.counter) := by omega
        rw [if_neg h1, if_neg h2]
      by_cases him : i = m
      · subst him
        rw [kg_m, inv.count_eq i hi e hemem, hkm]
        have h1 : ¬(e.1 = -1) := by omega
        have h2 : ¬(e.1 = s.counter) := by omega
        rw [if_neg h1, if_neg h2]
      · rw [kg_other i hir him]
        exact inv.count_eq i hi e hemem
    · rw [List.mem_singleton] at hemem
      subst hemem
      simp only
      by_cases hir : i = r
      · subst hir
        rw [kg_r]
        have hcnt : List.count i [i, m] = 1 := by
          simp [List.count_cons, hrm]
        rw [hcnt, if_pos rfl]
      by_cases him : i = m
      · subst him
        rw [kg_m]
        have hcnt : List.count i [r, i] = 1 := by
          have : i ≠ r := fun h => hir h
          simp [List.count_cons, this]
        rw [hcnt, if_pos rfl]
      · have hcnt : List.count i [r, m] = 0 := by
          simp [List.count_cons, hir, him]
        rw [hcnt, kg_other i hir him]
        have hne : ¬(s.counter = s.keys.getD i (-1)) := by
          rcases inv.owner_cases i hi with h | h
          · rw [h]; omega
          · omega
        rw [if_neg hne]

/-- One loop iteration preserves the invariant, always leaves row `r` assigned,
and never un-assigns an index. -/
theorem rStep_inv {n : Nat} {s : RState} (r m : Nat) (hr : r < n) (hm : m < n)
    (hrm : r ≠ m) (inv : Inv n s) :
    Inv n (rStep s r m) ∧ (rStep s r m).keys.getD r (-1) ≠ -1 ∧
      ∀ i, s.keys.getD i (-1) ≠ -1 → (rStep s r m).keys.getD i (-1) ≠ -1 := by
  have hcnn := inv.cnonneg
  by_cases h1 : s.keys.getD r (-1) = -1
  · by_cases h2 : s.keys.getD m (-1) = -1
    · -- case 1: both unassigned, new cluster
      have hst : rStep s r m =
          ⟨dictAppendAt (dictInsert s.dict s.counter [r]) s.counter m,
           (s.keys.set r s.counter).set m s.counter, s.counter + 1⟩ := by
        unfold rStep
        rw [if_pos ⟨h1, h2⟩]
      rw [hst]
      refine ⟨newClusterStep_inv r m hr hm hrm inv h1 h2, ?_, ?_⟩
      · show ((s.keys.set r s.counter).set m s.counter).getD r (-1) ≠ -1
        rw [getD_set_ne _ _ _ _ _ (Ne.symm hrm),
            getD_set_self _ _ _ _ (by rw [inv.klen]; exact hr)]
        omega
      · intro i hi
        show ((s.keys.set r s.counter).set m s.counter).getD i (-1) ≠ -1
        by_cases him : i = m
        · subst him
          rw [getD_set_self _ _ _ _ (by simpa [inv.klen] using hm)]
          omega
        by_cases hir : i = r
        · subst hir
          rw [getD_set_ne _ _ _ _ _ (Ne.symm him),
              getD_set_self _ _ _ _ (by rw [inv.klen]; exact hr)]
          omega
        · rw [getD_set_ne _ _ _ _ _ (Ne.symm him), getD_set_ne _ _ _ _ _ (Ne.symm hir)]
          exact hi
    · -- case 2: r unassigned joins the cluster of m
      have hst : rStep s r m =
          ⟨dictAppendAt s.dict (s.keys.getD m (-1)) r,
           s.keys.set r (s.keys.getD m (-1)), s.counter⟩ := by
        unfold rStep
        rw [if_neg (fun hc => h2 hc.2), if_pos ⟨h1, h2⟩]
      rw [hst]
      have hκ0 : 0 ≤ s.keys.getD m (-1) := by
        rcases inv.owner_cases m hm with h | h
        · exact absurd h h2
        · exact h.1
      refine ⟨joinStep_inv r m hr hm hrm inv h1 h2, ?_, ?_⟩
      · show (s.keys.set r (s.keys.getD m (-1))).getD r (-1) ≠ -1
        rw [getD_set_self _ _ _ _ (by rw [inv.klen]; exact hr)]
        omega
      · intro i hi
        show (s.keys.set r (s.keys.getD m (-1))).getD i (-1) ≠ -1
        by_cases hir : i = r
        · subst hir
          rw [getD_set_self _ _ _ _ (by rw [inv.klen]; exact hr)]
          omega
        · rw [getD_set_ne _ _ _ _ _ (Ne.symm hir)]
          exact hi
  · by_cases h2 : s.keys.getD m (-1) = -1
    · -- case 3: the unassigned match m joins the cluster of r
      have hst : rStep s r m =
          ⟨dictAppendAt s.dict (s.keys.getD r (-1)) m,
           s.keys.set m (s.keys.getD r (-1)), s.counter⟩ := by
        unfold rStep
        rw [if_neg (fun hc => h1 hc.1), if_neg (fun hc => h1 hc.1), if_pos ⟨h1, h2⟩]
      rw [hst]
      have hκ0 : 0 ≤ s.keys.getD r (-1) := by
        rcases inv.owner_cases r hr with h | h
        · exact absurd h h1
        · exact h.1
      refine ⟨joinStep_inv m r hm hr (Ne.symm hrm) inv h2 h1, ?_, ?_⟩
      · show (s.keys.set m (s.keys.getD r (-1))).getD r (-1) ≠ -1
        rw [getD_set_ne _ _ _ _ _ (Ne.symm hrm)]
        exact h1
      · intro i hi
        show (s.keys.set m (s.keys.getD r (-1))).getD i (-1) ≠ -1
        by_cases him : i = m
        · subst him
          rw [getD_set_self _ _ _ _ (by rw [inv.klen]; exact hm)]
          omega
        · rw [getD_set_ne _ _ _ _ _ (Ne.symm him)]
          exact hi
    · -- case 4: both assigned → no action
      have hst : rStep s r m = s := by
        unfold rStep
        rw [if_neg (fun hc => h1 hc.1), if_neg (fun hc => h1 hc.1), if_neg (fun hc => h2 hc.2)]
      rw [hst]
      exact ⟨inv, h1, fun i hi => hi⟩

/-- The row loop keeps the invariant, and every visited row ends up assigned. -/
theorem pdmGo_inv {n : Nat} :
    ∀ (rows : List (List ℚ)) (r : Nat) (s : RState),
      Inv n s →
      r + rows.length ≤ n →
      (∀ j, j < rows.length → (rows.getD j []).length = n) →
      (∀ j, j < rows.length → argminIdx (rows.getD j []) ≠ r + j) →
      (∀ i, i < r → s.keys.getD i (-1) ≠ -1) →
      Inv n (pdmGo rows r s) ∧
        ∀ i, i < r + rows.length → (pdmGo rows r s).keys.getD i (-1) ≠ -1 := by
  intro rows
  induction rows with
  | nil =>
    intro r s inv _ _ _ hass
    exact ⟨inv, by simpa using hass⟩
  | cons row rest ih =>
    intro r s inv hle hrows hdiag hass
    have hrowlen : row.length = n := by
      have := hrows 0 (by simp)
      simpa using this
    have hrn : r < n := by
      simp only [List.length_cons] at hle
      omega
    have hrow_ne : row ≠ [] := by
      intro hnil
      rw [hnil] at hrowlen
      simp at hrowlen
      omega
    have hm : argminIdx row < n := by
      have := (argminIdx_spec row hrow_ne).1
      omega
    have hmr : r ≠ argminIdx row := by
      have := hdiag 0 (by simp)
      simpa using fun h => this h.symm
    obtain ⟨inv2, hr2, hpres⟩ := rStep_inv r (argminIdx row) hrn hm hmr inv
    have step := ih (r + 1) (rStep s r (argminIdx row)) inv2
      (by simp only [List.length_cons] at hle; omega)
      (by
        intro j hj
        have := hrows (j + 1) (by simp only [List.length_cons]; omega)
        simpa using this)
      (by
        intro j hj
        have := hdiag (j + 1) (by simp only [List.length_cons]; omega)
        simp only [List.getD_cons_succ] at this
        intro hcontra
        apply this
        rw [hcontra]
        omega)
      (by
        intro i hi
        rcases Nat.lt_succ_iff_lt_or_eq.mp hi with hi' | hi'
        · exact hpres i (hass i hi')
        · subst hi'
          exact hr2)
    refine ⟨step.1, ?_⟩
    intro i hi
    apply step.2
    simp only [List.length_cons] at hi
    omega

/-- Multiplicity of index `i` across all member lists of the output dict. -/
def countIn (d : List (Int × List Nat)) (i : Nat) : Nat :=
  (d.map (fun e => e.2.count i)).sum

/-- The initial resolver state satisfies the invariant. -/
theorem init_inv (n : Nat) : Inv n ⟨[], List.replicate n (-1), 0⟩ := by
  constructor
  · simp
  · simp
  · simp
  · simp
  · intro i hi
    exact Or.inl (getD_replicate_lt n i (-1) hi)
  · intro i _ e he
    simp at he

/-- C1 (amended): for a square distance matrix over `n ≥ 1` items in which every
row's first-minimum argmin differs from the row index, the Greedy Cluster
Resolver's member lists form a partition of `{0, …, n-1}`: every index has total
multiplicity 1 over all clusters, i.e. it appears in exactly one cluster's
member list and exactly once there.  (The proviso is forced: when a row's argmin
is the row itself — e.g. any 1×1 matrix — the index is appended twice to its own
cluster, see the counterexample.) -/
theorem C1_partition (mat : List (List ℚ)) (_hn : 1 ≤ mat.length)
    (hsq : ∀ j, j < mat.length → (mat.getD j []).length = mat.length)
    (hdiag : ∀ j, j < mat.length → argminIdx (mat.getD j []) ≠ j) :
    ∀ i, i < mat.length → countIn (process_dist_mat mat) i = 1 := by
  intro i hi
  obtain ⟨invF, hall⟩ := pdmGo_inv (n := mat.length) mat 0
    ⟨[], List.replicate mat.length (-1), 0⟩ (init_inv mat.length)
    (by omega) hsq (by intro j hj; simpa using hdiag j hj) (by omega)
  have hkey : (pdmGo mat 0 ⟨[], List.replicate mat.length (-1), 0⟩).keys.getD i (-1) ≠ -1 :=
    hall i (by omega)
  have hmem : (pdmGo mat 0 ⟨[], List.replicate mat.length (-1), 0⟩).keys.getD i (-1) ∈
      (pdmGo mat 0 ⟨[], List.replicate mat.length (-1), 0⟩).dict.map Prod.fst := by
    rcases invF.owner_mem i hi with h | h
    · exact absurd h hkey
    · exact h
  exact sum_indicator_eq_one _ _ i invF.knd hmem (invF.count_eq i hi)

/-- Witness for C1: the 2×2 matrix whose rows pick each other; each of the two
indices has multiplicity exactly 1 in the resolver output. -/
theorem C1_partition_witness :
    countIn (process_dist_mat [[5, 1], [1, 5]]) 0 = 1 ∧
      countIn (process_dist_mat [[5, 1], [1, 5]]) 1 = 1 :=
  ⟨C1_partition [[5, 1], [1, 5]] (by decide) (by decide) (by decide) 0 (by decide),
   C1_partition [[5, 1], [1, 5]] (by decide) (by decide) (by decide) 1 (by decide)⟩

/-- Counterexample to C1 as stated: on the 1×1 distance matrix `[[0]]`
(`n = 1 ≥ 1`), row 0's first minimum is row 0 itself and the resolver appends
index 0 twice to cluster 0, so index 0 does not appear "exactly once". -/
theorem C1_counterexample :
    process_dist_mat [[(0 : ℚ)]] = [(0, [0, 0])] ∧
      countIn (process_dist_mat [[(0 : ℚ)]]) 0 = 2 := by
  constructor
  · decide
  · decide

/-- C2 (amended): in a self-pool row `d` of length `n ≥ 2` whose diagonal entry
`d[r]` is the only zero (all other entries strictly positive), the
post-suppression first-minimum argmin differs from `r` — except in the case
`r = 0` with all off-diagonal entries equal (e.g. every 2-element row), where
suppression produces a constant-looking row whose first minimum is index 0
again; that exception is excluded by hypothesis here and realised by the
counterexample. -/
theorem C2_self_suppression (d : List ℚ) (r : Nat) (hlen : 2 ≤ d.length)
    (hr : r < d.length) (hdiag : d.getD r 0 = 0)
    (hpos : ∀ j, j < d.length → j ≠ r → 0 < d.getD j 0)
    (hne : ¬(r = 0 ∧ ∀ j, j < d.length → j ≠ r → ∀ k, k < d.length → k ≠ r →
        d.getD j 0 = d.getD k 0)) :
    argminIdx (compute_distances d true) ≠ r := by
  have hdne : d ≠ [] := by
    intro h
    rw [h] at hlen
    simp at hlen
  obtain ⟨hlt, hmin, _⟩ := argminIdx_spec d hdne
  have hargmin : argminIdx d = r := by
    by_contra hc
    have h1 : 0 < d.getD (argminIdx d) 0 := hpos _ hlt hc
    have h2 : d.getD (argminIdx d) 0 ≤ d.getD r 0 := hmin r hr
    rw [hdiag] at h2
    linarith
  obtain ⟨_, hmax⟩ := argmaxIdx_spec d hdne
  have hsupp : compute_distances d true = d.set r (d.getD (argmaxIdx d) 0) := by
    show d.set (argminIdx d) (d.getD (argmaxIdx d) 0) = _
    rw [hargmin]
  rw [hsupp]
  have hset_len : (d.set r (d.getD (argmaxIdx d) 0)).length = d.length := by simp
  have hsne : d.set r (d.getD (argmaxIdx d) 0) ≠ [] := by
    apply List.length_pos.mp
    rw [hset_len]
    omega
  obtain ⟨_, hamin, hafirst⟩ := argminIdx_spec (d.set r (d.getD (argmaxIdx d) 0)) hsne
  intro hcontra
  have hval_r : (d.set r (d.getD (argmaxIdx d) 0)).getD r 0 = d.getD (argmaxIdx d) 0 :=
    getD_set_self _ _ _ _ hr
  have hval_ne : ∀ j, j ≠ r →
      (d.set r (d.getD (argmaxIdx d) 0)).getD j 0 = d.getD j 0 := by
    intro j hj
    exact getD_set_ne _ _ _ _ _ (fun h => hj h.symm)
  have hall : ∀ j, j < d.length → j ≠ r → d.getD j 0 = d.getD (argmaxIdx d) 0 := by
    intro j hjlt hjr
    have h1 := hamin j (by rw [hset_len]; exact hjlt)
    rw [hcontra, hval_r, hval_ne j hjr] at h1
    have h2 := hmax j hjlt
    linarith
  have hr0 : r = 0 := by
    by_contra hrne
    have h0r : 0 < r := Nat.pos_of_ne_zero hrne
    have h1 := hafirst 0 (by rw [hcontra]; exact h0r)
    rw [hcontra, hval_r, hval_ne 0 (by omega)] at h1
    have h2 := hall 0 (by omega) (by omega)
    linarith
  apply hne
  refine ⟨hr0, ?_⟩
  intro j hjlt hjr k hklt hkr
  rw [hall j hjlt hjr, hall k hklt hkr]

/-- Witness for C2: row `[1, 0, 2]` with diagonal `r = 1`; after suppression the
selected argmin is not 1. -/
theorem C2_self_suppression_witness :
    argminIdx (compute_distances [1, 0, 2] true) ≠ 1 :=
  C2_self_suppression [1, 0, 2] 1 (by decide) (by decide) (by decide) (by decide) (by decide)

/-- Counterexample to C2 as stated: the 2-element self-pool row of item 0,
`[0, 1]` (diagonal 0, one strictly positive off-diagonal distance).  Suppression
replaces the minimum with the maximum giving `[1, 1]`, and the first-minimum
argmin of the suppressed row is 0 = r: the suppressed diagonal IS selected,
although the row has `n = 2 ≥ 2` entries. -/
theorem C2_counterexample :
    compute_distances [(0 : ℚ), 1] true = [1, 1] ∧
      argminIdx (compute_distances [(0 : ℚ), 1] true) = 0 := by
  constructor
  · decide
  · decide

/-- C3 (amended): on a single crop the resolver does not raise and produces the
single cluster `ID-0` containing only that crop — but the crop's name is listed
twice (`{"ID-0": [A, A]}`), because row 0's argmin is row 0 itself, which the
first branch of the matching rule appends once as the row and once as its own
match. -/
theorem C3_single_image (dist : ℚ) (a : String) :
    format_output_dict [a] (process_dist_mat [[dist]]) =
      [("ID-0", [lastComp a, lastComp a])] := rfl

/-- Counterexample to C3 as stated: for the single crop `"A"` the result is
`{"ID-0": [A, A]}`, not `{"ID-0": [A]}`. -/
theorem C3_counterexample :
    format_output_dict ["A"] (process_dist_mat [[(0 : ℚ)]]) ≠ [("ID-0", ["A"])] := by
  decide

/-- C4: the resolver applies the four-case rule on `(owner[r], owner[m])`; when
both are already assigned it takes no action (never merges two existing
clusters), and on the three-item scenario with argmins `A→B`, `B→A`, `C→B`
(rows visited in index order, first-minimum matching) the result is the single
cluster `{"ID-0": [A, B, C]}`. -/
theorem C4_no_merge_and_scenario :
    (∀ (s : RState) (r m : Nat), s.keys.getD r (-1) ≠ -1 → s.keys.getD m (-1) ≠ -1 →
      rStep s r m = s) ∧
    format_output_dict ["A", "B", "C"] (process_dist_mat [[5, 1, 9], [1, 5, 9], [9, 1, 5]]) =
      [("ID-0", ["A", "B", "C"])] := by
  constructor
  · intro s r m h1 h2
    unfold rStep
    rw [if_neg (fun hc => h1 hc.1), if_neg (fun hc => h1 hc.1), if_neg (fun hc => h2 hc.2)]
  · decide

/-- Witness for C4: the no-action branch applied to a concrete state in which
row 0 and its match 1 are both already owned by cluster 0. -/
theorem C4_no_merge_witness :
    rStep ⟨[(0, [0, 1])], [0, 0], 1⟩ 0 1 = ⟨[(0, [0, 1])], [0, 0], 1⟩ :=
  C4_no_merge_and_scenario.1 ⟨[(0, [0, 1])], [0, 0], 1⟩ 0 1 (by decide) (by decide)

/-! ### Extraction Orchestrator (`UploadPage.py`) -/

/-- One detection as returned by `detection.main`:
`(bbox_image, crop_image, label, confidence)`, image payloads abstract. -/
structure DetRes (Img : Type) where
  bbox_image : Img
  crop_image : Img
  label : String
  confidence : ℚ

/-- `UploadPage.process_image_func` (lines 28-69): `None` when the image fails
to load (`cv2.imread` returned nothing) or the detector result list is empty;
otherwise the confidence and the updated group name `group_name + " " + label`
taken from the first detection.  The artifact file paths are built from the
wall clock and written to disk — external effects outside the model. -/
def process_image_func {Img : Type} (detect : Img → List (DetRes Img))
    (loaded_image : Option Img) (group_name : String) : Option (ℚ × String) :=
  match loaded_image with
  | none => none
  | some img =>
    match detect img with
    | [] => none
    | d :: _ => some (d.confidence, group_name ++ " " ++ d.label)

/-- The collection loop of `ImageProcessingWorker.run` (lines 108-117): futures
are consumed in submission order; a `None` per-task result is skipped
(`if result:`), and every collected future — failed or not — emits exactly one
progress signal `(i + 1, remaining_time)` where
`remaining_time = (elapsed i / (i + 1)) * (total - (i + 1))` and `elapsed i` is
the wall-clock time elapsed when future `i` is collected. -/
def collectLoop {ρ : Type} (elapsed : Nat → ℚ) (total : Nat) :
    List (Option ρ) → Nat → List ρ × List (Nat × ℚ)
  | [], _ => ([], [])
  | fut :: rest, i =>
    let tail := collectLoop elapsed total rest (i + 1)
    let ev : Nat × ℚ := (i + 1, (elapsed i / ((i : ℚ) + 1)) * ((total : ℚ) - ((i : ℚ) + 1)))
    match fut with
    | some v => (v :: tail.1, ev :: tail.2)
    | none => (tail.1, ev :: tail.2)

/-- `ImageProcessingWorker.run` (lines 97-120): submit one future per image in
order, collect them in submission order; the returned list is the
`result_ready` payload `self.processed_images`. -/
def workerRun {τ ρ : Type} (process : τ → Option ρ) (elapsed : Nat → ℚ)
    (images : List τ) : List ρ :=
  (collectLoop elapsed images.length (images.map process) 0).1

/-- The sequence of progress signals emitted by the same run. -/
def workerEvents {τ ρ : Type} (process : τ → Option ρ) (elapsed : Nat → ℚ)
    (images : List τ) : List (Nat × ℚ) :=
  (collectLoop elapsed images.length (images.map process) 0).2

theorem collectLoop_fst {ρ : Type} (elapsed : Nat → ℚ) (total : Nat) :
    ∀ (futs : List (Option ρ)) (i : Nat),
      (collectLoop elapsed total futs i).1 = futs.filterMap id := by
  intro futs
  induction futs with
  | nil => intro i; rfl
  | cons fut rest ih =>
    intro i
    match fut with
    | some v =>
      show v :: (collectLoop elapsed total rest (i + 1)).1 = _
      rw [ih (i + 1)]
      rfl
    | none =>
      show (collectLoop elapsed total rest (i + 1)).1 = _
      rw [ih (i + 1)]
      rfl

theorem collectLoop_snd {ρ : Type} (elapsed : Nat → ℚ) (total : Nat) :
    ∀ (futs : List (Option ρ)) (i : Nat),
      (collectLoop elapsed total futs i).2 =
        (List.range' i futs.length).map (fun t =>
          (t + 1, (elapsed t / ((t : ℚ) + 1)) * ((total : ℚ) - ((t : ℚ) + 1)))) := by
  intro futs
  induction futs with
  | nil => intro i; rfl
  | cons fut rest ih =>
    intro i
    have htail : (collectLoop elapsed total (fut :: rest) i).2 =
        (i + 1, (elapsed i / ((i : ℚ) + 1)) * ((total : ℚ) - ((i : ℚ) + 1))) ::
          (collectLoop elapsed total rest (i + 1)).2 := by
      match fut with
      | some v => rfl
      | none => rfl
    rw [htail, ih (i + 1)]
    show _ = (List.range' i (rest.length + 1)).map _
    rw [List.range'_succ i rest.length 1, List.map_cons]

/-- C5 (amended): `ImageProcessingWorker.run` collects futures in submission
order and returns exactly the successful results, in submission order — a task
whose image fails to load or yields no detection is *omitted* from the returned
list (`if result:` skips it) rather than contributing a `Failure` entry at its
own index; the batch is not aborted (all later successes still appear).
Formally the run result is `images.filterMap process`. -/
theorem C5_order_preservation {τ ρ : Type} (process : τ → Option ρ) (elapsed : Nat → ℚ)
    (images : List τ) :
    workerRun process elapsed images = images.filterMap process := by
  show (collectLoop elapsed images.length (images.map process) 0).1 = _
  rw [collectLoop_fst]
  simp [List.filterMap_map]

/-- Counterexample to C5 as stated: two tasks where the first one fails.  The
returned sequence is `[1]` — length 1, not the task-list length 2, and no
Failure entry occupies index 0. -/
theorem C5_counterexample :
    workerRun (fun n : Nat => if n = 0 then none else some n) (fun _ => 0) [0, 1] = [1] ∧
      (workerRun (fun n : Nat => if n = 0 then none else some n) (fun _ => 0) [0, 1]).length ≠
        ([0, 1] : List Nat).length := by
  constructor
  · decide
  · decide

/-- C6: the run emits exactly one progress report per collected task (also for
failed tasks); the `i`-th report's completed count is `i + 1` — the number of
tasks collected so far, so it increases by 1 and is non-decreasing — and its
remaining-time estimate is exactly
`(elapsed_time / tasks_completed) * (total_tasks - tasks_completed)`,
recomputed from the wall clock at every completion. -/
theorem C6_progress_events {τ ρ : Type} (process : τ → Option ρ) (elapsed : Nat → ℚ)
    (images : List τ) :
    (workerEvents process elapsed images).length = images.length ∧
      (∀ i, i < images.length →
        (workerEvents process elapsed images).getD i (0, 0) =
          (i + 1, (elapsed i / ((i : ℚ) + 1)) * ((images.length : ℚ) - ((i : ℚ) + 1)))) ∧
      (∀ i j, i ≤ j → j < images.length →
        ((workerEvents process elapsed images).getD i (0, 0)).1 ≤
          ((workerEvents process elapsed images).getD j (0, 0)).1) := by
  have hev : workerEvents process elapsed images =
      (List.range' 0 images.length).map (fun t =>
        (t + 1, (elapsed t / ((t : ℚ) + 1)) * ((images.length : ℚ) - ((t : ℚ) + 1)))) := by
    show (collectLoop elapsed images.length (images.map process) 0).2 = _
    rw [collectLoop_snd]
    rw [List.length_map]
  have hgetD : ∀ i, i < images.length →
      (workerEvents process elapsed images).getD i (0, 0) =
        (i + 1, (elapsed i / ((i : ℚ) + 1)) * ((images.length : ℚ) - ((i : ℚ) + 1))) := by
    intro i hi
    rw [hev, List.getD_eq_getElem _ _ (by simpa using hi), List.getElem_map]
    simp [List.getElem_range'_1]
  refine ⟨?_, hgetD, ?_⟩
  · rw [hev]
    simp
  · intro i j hij hj
    rw [hgetD i (lt_of_le_of_lt hij hj), hgetD j hj]
    show i + 1 ≤ j + 1
    omega

/-- Witness for C6: the second report of a three-image run with 4 time units
elapsed: completed count 2 and eta `(4 / 2) * (3 - 2)`. -/
theorem C6_progress_events_witness :
    (workerEvents (fun n : Nat => some n) (fun _ => (4 : ℚ)) [5, 7, 9]).getD 1 (0, 0) =
      (1 + 1, ((4 : ℚ) / (((1 : Nat) : ℚ) + 1)) *
        ((([5, 7, 9] : List Nat).length : ℚ) - (((1 : Nat) : ℚ) + 1))) :=
  (C6_progress_events (fun n : Nat => some n) (fun _ => (4 : ℚ)) [5, 7, 9]).2.1 1 (by decide)

/-! ### Result Assembler characterization (C7) -/

theorem any_key_eq_false (acc : List (String × List String)) (id : String)
    (h : id ∉ acc.map Prod.fst) : acc.any (fun x => x.1 = id) = false := by
  rw [Bool.eq_false_iff]
  intro hc
  rw [List.any_eq_true] at hc
  rcases hc with ⟨x, hx, hpx⟩
  exact h (by rw [← of_decide_eq_true hpx]; exact List.mem_map_of_mem Prod.fst hx)

theorem formatGo_spec (names : List String) :
    ∀ (od : List (Int × List Nat)) (acc : List (String × List String)),
      (∀ e ∈ od, ("ID-" ++ toString e.1) ∉ acc.map Prod.fst) →
      (od.map (fun e => "ID-" ++ toString e.1)).Nodup →
      od.foldl
        (fun acc e =>
          if acc.any (fun x => x.1 = "ID-" ++ toString e.1) then acc
          else acc ++ [("ID-" ++ toString e.1, e.2.map (fun img => names.getD img ""))]) acc
      = acc ++ od.map (fun e =>
          ("ID-" ++ toString e.1, e.2.map (fun img => names.getD img ""))) := by
  intro od
  induction od with
  | nil =>
    intro acc _ _
    simp
  | cons e rest ih =>
    intro acc hnotin hnd
    simp only [List.map_cons, List.nodup_cons] at hnd
    simp only [List.foldl_cons]
    have hany : acc.any (fun x => x.1 = "ID-" ++ toString e.1) = false :=
      any_key_eq_false acc _ (hnotin e (List.mem_cons_self e rest))
    rw [if_neg (by rw [hany]; exact Bool.false_ne_true)]
    rw [ih (acc ++ [("ID-" ++ toString e.1, e.2.map (fun img => names.getD img ""))]) ?_ hnd.2]
    · rw [List.append_assoc]
      rfl
    · intro e2 he2
      rw [List.map_append]
      intro hmem
      rcases List.mem_append.mp hmem with hin | hin
      · exact hnotin e2 (List.mem_cons_of_mem e he2) hin
      · simp only [List.map_cons, List.map_nil, List.mem_singleton] at hin
        exact hnd.1 (hin ▸ List.mem_map_of_mem (fun e => "ID-" ++ toString e.1) he2)

/-- C7: for a cluster dict with distinct formatted ids (cluster ids are distinct
integers) and a reference list covering every member index, the Result
Assembler outputs exactly one entry per cluster, in dict order, keyed
`"ID-" ++ cluster_id` (the resolver-allocated integer, not renumbered), whose
value is exactly `[R[i] for i in members]` in the resolver's internal member
order, each reference reduced to its final `/`-separated component. -/
theorem C7_round_trip (R : List String) (od : List (Int × List Nat))
    (hnd : (od.map (fun e => "ID-" ++ toString e.1)).Nodup)
    (hcov : ∀ e ∈ od, ∀ i ∈ e.2, i < R.length) :
    format_output_dict R od =
      od.map (fun e => ("ID-" ++ toString e.1, e.2.map (fun i => lastComp (R.getD i "")))) := by
  have hname : ∀ img, img < R.length → (R.map lastComp).getD img "" = lastComp (R.getD img "") := by
    intro img h
    rw [List.getD_eq_getElem _ _ (by simpa using h), List.getElem_map,
        List.getD_eq_getElem _ _ h]
  show od.foldl
      (fun acc e =>
        if acc.any (fun x => x.1 = "ID-" ++ toString e.1) then acc
        else acc ++ [("ID-" ++ toString e.1, e.2.map (fun img => (R.map lastComp).getD img ""))])
      [] = _
  rw [formatGo_spec (R.map lastComp) od [] (by simp) hnd]
  rw [List.nil_append]
  apply List.map_congr_left
  intro e he
  refine congrArg _ ?_
  apply List.map_congr_left
  intro img himg
  exact hname img (hcov e he img himg)

/-- Witness for C7: two clusters over two references; the second reference is
shared, the first is a path reduced to its basename. -/
theorem C7_round_trip_witness :
    format_output_dict ["x/a.jpg", "b.jpg"] [(0, [0, 1]), (1, [1])] =
      [("ID-0", ["a.jpg", "b.jpg"]), ("ID-1", ["b.jpg"])] :=
  (C7_round_trip ["x/a.jpg", "b.jpg"] [(0, [0, 1]), (1, [1])]
    (by decide) (by decide)).trans (by decide)

/-! ### Detector wrapper (`detection.py`) -/

/-- The fields of a YOLO prediction read by `make_inference_detection`:
the class-name dictionary, per-box confidences, per-box class ids, and the
boxes themselves (abstract payload `B`). -/
structure Prediction (B : Type) where
  names : Nat → String
  confs : List ℚ
  cls : List Nat
  boxes : List B

/-- `detection.make_inference_detection` (lines 26-42): `None` when there is no
box; otherwise label and confidence come from the box of maximal confidence
(`max_conf_index = np.argmax`), while the bounding box used for BOTH the
overlay and the crop is `prediction.boxes.xyxy.numpy()[0]` — box index 0.
`draw_bounding_box` and `crop_image` are the pure image operations of the same
file, abstract here. -/
def make_inference_detection {Img B : Type} [Inhabited B]
    (draw_bounding_box : Img → B → ℚ → Img) (crop_image : Img → B → Img)
    (image : Img) (p : Prediction B) : Option (Img × Img × String × ℚ) :=
  if p.confs.length = 0 then none
  else
    let max_conf_index := argmaxIdx p.confs
    let max_conf := p.confs.getD max_conf_index 0
    let label := p.names (p.cls.getD max_conf_index 0)
    let bounding_box := p.boxes.getD 0 default
    some (draw_bounding_box image bounding_box max_conf,
          crop_image image bounding_box, label, max_conf)

/-- C8: when boxes exist, the reported confidence is the maximum over all boxes
and the reported label comes from the argmax box, yet both the overlay and the
crop are computed from box index 0; whenever `argmax(confidences) ≠ 0` the crop
therefore does not come from the detection whose confidence and label are
reported. -/
theorem C8_crop_from_box_zero {Img B : Type} [Inhabited B]
    (draw_bounding_box : Img → B → ℚ → Img) (crop_image : Img → B → Img)
    (image : Img) (p : Prediction B)
    (hne : p.confs ≠ []) (hidx : argmaxIdx p.confs ≠ 0) :
    make_inference_detection draw_bounding_box crop_image image p =
      some (draw_bounding_box image (p.boxes.getD 0 default)
              (p.confs.getD (argmaxIdx p.confs) 0),
            crop_image image (p.boxes.getD 0 default),
            p.names (p.cls.getD (argmaxIdx p.confs) 0),
            p.confs.getD (argmaxIdx p.confs) 0) ∧
      (∀ j, j < p.confs.length → p.confs.getD j 0 ≤ p.confs.getD (argmaxIdx p.confs) 0) ∧
      argmaxIdx p.confs ≠ 0 := by
  refine ⟨?_, (argmaxIdx_spec p.confs hne).2, hidx⟩
  unfold make_inference_detection
  rw [if_neg (fun h => hne (List.length_eq_zero.mp h))]

/-- Witness for C8: two boxes with confidences `[1, 2]`; the argmax is box 1,
whose label is reported, but the returned overlay and crop use box 0
(payload 10), not box 1 (payload 20). -/
theorem C8_crop_from_box_zero_witness :
    make_inference_detection (fun (_ : Unit) (b : Nat) (_ : ℚ) => b) (fun _ b => b) ()
      ⟨fun k => toString k, [1, 2], [0, 1], [10, 20]⟩ = some (10, 10, toString 1, 2) :=
  (C8_crop_from_box_zero (fun (_ : Unit) (b : Nat) (_ : ℚ) => b) (fun _ b => b) ()
    ⟨fun k => toString k, [1, 2], [0, 1], [10, 20]⟩ (by decide) (by decide)).1.trans (by decide)

/-! ### Group-name round trip (C9) -/

/-- Python's `cs.rsplit(' ', 1)[0]` on a character list: everything before the
last space, or the whole list when there is no space. -/
def rsplitData (cs : List Char) : List Char :=
  match cs.reverse.dropWhile (fun c => c != ' ') with
  | [] => cs
  | _ :: rest => rest.reverse

/-- Python's `s.rsplit(' ', 1)[0]`, as used by
`UploadPage.store_images_with_location` to recover the group hint and the
animal label from a stored group name. -/
def rsplitHead (s : String) : String := ⟨rsplitData s.data⟩

theorem dropWhile_append_all {α : Type} (p : α → Bool) :
    ∀ (l1 l2 : List α), (∀ c ∈ l1, p c = true) → (l1 ++ l2).dropWhile p = l2.dropWhile p := by
  intro l1
  induction l1 with
  | nil => intro l2 _; rfl
  | cons c rest ih =>
    intro l2 hall
    rw [List.cons_append, List.dropWhile_cons, if_pos (hall c (List.mem_cons_self c rest))]
    exact ih l2 (fun d hd => hall d (List.mem_cons_of_mem c hd))

/-- Recovery: splitting off the last space-separated token of
`g ++ " " ++ lab` gives back `g`, provided the label contains no space. -/
theorem rsplitHead_append (g lab : String) (h : ∀ c ∈ lab.data, c ≠ ' ') :
    rsplitHead (g ++ " " ++ lab) = g := by
  have hdata : (g ++ " " ++ lab).data = (g.data ++ [' ']) ++ lab.data := by
    simp [String.data_append]
  have hrev : ((g ++ " " ++ lab).data).reverse = lab.data.reverse ++ (' ' :: g.data.reverse) := by
    rw [hdata, List.reverse_append, List.reverse_append]
    simp
  have hdrop : ((g ++ " " ++ lab).data).reverse.dropWhile (fun c => c != ' ')
      = ' ' :: g.data.reverse := by
    rw [hrev, dropWhile_append_all]
    · rw [List.dropWhile_cons]
      norm_num
    · intro c hc
      have hcne : c ≠ ' ' := h c (List.mem_reverse.mp hc)
      simpa using hcne
  show String.mk (rsplitData (g ++ " " ++ lab).data) = g
  unfold rsplitData
  rw [hdrop]
  show String.mk g.data.reverse.reverse = g
  rw [List.reverse_reverse]

/-- C9: on every successfully processed task, `process_image_func` returns a
group name equal to the input group name with a single space and the first
detection's label appended; the original group hint is never returned
unmodified (the result is strictly longer); and — for labels containing no
space, as the detector's class names do — downstream grouping recovers the
hint by splitting off the last space-separated token (`rsplit(' ', 1)[0]`). -/
theorem C9_group_name {Img : Type} (detect : Img → List (DetRes Img))
    (loaded_image : Option Img) (group_name : String) (out : ℚ × String)
    (hout : process_image_func detect loaded_image group_name = some out) :
    ∃ d : DetRes Img,
      (∃ img rest, loaded_image = some img ∧ detect img = d :: rest) ∧
      out.2 = group_name ++ " " ++ d.label ∧
      out.2 ≠ group_name ∧
      ((∀ c ∈ d.label.data, c ≠ ' ') → rsplitHead out.2 = group_name) := by
  cases hli : loaded_image with
  | none =>
    rw [hli] at hout
    exact absurd hout (by simp [process_image_func])
  | some img =>
    rw [hli] at hout
    cases hdet : detect img with
    | nil =>
      rw [process_image_func, hdet] at hout
      exact absurd hout (by simp)
    | cons d rest =>
      rw [process_image_func, hdet] at hout
      have hout2 : (d.confidence, group_name ++ " " ++ d.label) = out := Option.some.inj hout
      refine ⟨d, ⟨img, rest, rfl, hdet⟩, ?_, ?_, ?_⟩
      · rw [← hout2]
      · rw [← hout2]
        intro hc
        have hlen := congrArg String.length hc
        simp only [String.length_append] at hlen
        have hsp : (" " : String).length = 1 := rfl
        rw [hsp] at hlen
        omega
      · intro hns
        rw [← hout2]
        exact rsplitHead_append group_name d.label hns

/-- Witness for C9: group hint `"grp"`, detector label `"stoat"`: the stored
group name is `"grp stoat"`, it differs from the hint, and `rsplit` recovery
returns the hint. -/
theorem C9_group_name_witness :
    rsplitHead "grp stoat" = "grp" ∧ ("grp stoat" : String) ≠ "grp" := by
  obtain ⟨d, hd, _, hne, hrec⟩ := C9_group_name (fun _ : Unit => [⟨(), (), "stoat", (1 : ℚ)⟩])
    (some ()) "grp" ((1 : ℚ), "grp stoat") (by decide)
  obtain ⟨img, rest, _, hdr⟩ := hd
  have hdlab : d.label = "stoat" := by
    have hhead := congrArg (fun l => l.headD ⟨(), (), "", 0⟩) hdr
    simp at hhead
    rw [← hhead]
  refine ⟨?_, hne⟩
  apply hrec
  rw [hdlab]
  decide

/-! ### Identity-resolution progress (C10) -/

/-- The sequence of values passed to `progress_callback` by the loop of
`ReID.main` (lines 174-186): one call per image, with
`int((index + 1) / len(image_path_list) * 100)` — integer floor, since the
quantity is non-negative. -/
def reidProgressCalls {α : Type} (image_path_list : List α) : List Nat :=
  (List.range image_path_list.length).map
    (fun index => (index + 1) * 100 / image_path_list.length)

/-- C10: over `n` images the progress callback is invoked exactly `n` times,
the `i`-th value is `⌊(i + 1) / n * 100⌋`, every value is at most 100 (and
non-negative, being a `Nat`), the sequence is non-decreasing, the final value
is exactly 100, and for `n = 0` the callback is never invoked (the loop body,
and with it the division by `n`, is never executed). -/
theorem C10_resolution_progress {α : Type} (image_path_list : List α) :
    (reidProgressCalls image_path_list).length = image_path_list.length ∧
      (∀ i, i < image_path_list.length →
        (reidProgressCalls image_path_list).getD i 0 =
            (i + 1) * 100 / image_path_list.length ∧
          (reidProgressCalls image_path_list).getD i 0 ≤ 100) ∧
      (∀ i j, i ≤ j → j < image_path_list.length →
        (reidProgressCalls image_path_list).getD i 0 ≤
          (reidProgressCalls image_path_list).getD j 0) ∧
      (0 < image_path_list.length →
        (reidProgressCalls image_path_list).getD (image_path_list.length - 1) 0 = 100) ∧
      reidProgressCalls ([] : List α) = [] := by
  have hget : ∀ i, i < image_path_list.length →
      (reidProgressCalls image_path_list).getD i 0 =
        (i + 1) * 100 / image_path_list.length := by
    intro i hi
    unfold reidProgressCalls
    rw [List.getD_eq_getElem _ _ (by simpa using hi), List.getElem_map]
    simp [List.getElem_range]
  have hle : ∀ i, i < image_path_list.length →
      (i + 1) * 100 / image_path_list.length ≤ 100 := by
    intro i hi
    have h1 : (i + 1) * 100 ≤ image_path_list.length * 100 := by
      apply Nat.mul_le_mul_right
      omega
    calc (i + 1) * 100 / image_path_list.length
        ≤ image_path_list.length * 100 / image_path_list.length :=
          Nat.div_le_div_right h1
      _ = 100 := Nat.mul_div_cancel_left 100 (by omega)
  refine ⟨?_, ?_, ?_, ?_, rfl⟩
  · unfold reidProgressCalls
    simp
  · intro i hi
    exact ⟨hget i hi, (hget i hi) ▸ hle i hi⟩
  · intro i j hij hj
    rw [hget i (lt_of_le_of_lt hij hj), hget j hj]
    apply Nat.div_le_div_right
    apply Nat.mul_le_mul_right
    omega
  · intro hn
    rw [hget (image_path_list.length - 1) (by omega)]
    have hsub : image_path_list.length - 1 + 1 = image_path_list.length := by omega
    rw [hsub]
    exact Nat.mul_div_cancel_left 100 hn

/-- Witness for C10: three images give the final call value 100 and a second
call value of `⌊2/3 * 100⌋ = 66` which is at most 100. -/
theorem C10_resolution_progress_witness :
    (reidProgressCalls [7, 8, 9]).getD 2 0 = 100 ∧
      (reidProgressCalls [7, 8, 9]).getD 1 0 ≤ 100 :=
  ⟨(C10_resolution_progress [7, 8, 9]).2.2.2.1 (by decide),
   ((C10_resolution_progress [7, 8, 9]).2.1 1 (by decide)).2⟩

end CareWeb
